import Mathlib

/-!
Verification of the Yokis USB dongle protocol driver
(homebridge-yokis-usb) against its natural-language specification.

Shallow embedding conventions:
* A Node.js `Buffer` is a `List Nat`, each element one byte (0..255).
* `buffer.toString()` is modelled as the identity on the byte list:
  all protocol content is ASCII, and regex matching is modelled
  directly on the byte list.
* Fallible TypeScript code (`throw`) is modelled with `Except`.
* External platform primitives (`JSON.parse` reachability, USB transfer
  results) are passed as explicit parameters where a function's control
  flow depends only on their observable outcome.
-/

namespace Yokis

/-- Byte constant list for the string "command.xml". -/
def cmdXmlB : List Nat := [99, 111, 109, 109, 97, 110, 100, 46, 120, 109, 108]

/-- Byte constant list for the string "server.xml". -/
def serverXmlB : List Nat := [115, 101, 114, 118, 101, 114, 46, 120, 109, 108]

/-- Byte constant list for the string "info.xml". -/
def infoXmlB : List Nat := [105, 110, 102, 111, 46, 120, 109, 108]

/-- Byte constant list for the string "action". -/
def actionB : List Nat := [97, 99, 116, 105, 111, 110]

/-- Byte constant list for the string "order". -/
def orderB : List Nat := [111, 114, 100, 101, 114]

/-- Byte constant list for the string "getstatus". -/
def getstatusB : List Nat := [103, 101, 116, 115, 116, 97, 116, 117, 115]

/-- Constant `YOKIS_PACKET_SIZE` from utils.ts / yokis.ts. -/
def YOKIS_PACKET_SIZE : Nat := 64

/-!
Component: Checksum Unit (`crcCalculation`, utils.ts lines 67-78)

```ts
export const crcCalculation = (input: Buffer) => {
    const buffer = Buffer.alloc((input.length < 64 ? YOKIS_PACKET_SIZE : input.length));
    // Remove first byte
    input.copy(buffer, 0, 1, input.length);

    let chk = 0;
    for (let i = 0; i < buffer.length - 1; i++) {
        chk = (chk ^ (buffer[i] & 255));
    }

    return chk;
}
```

`Buffer.alloc` zero-fills; `input.copy(buffer, 0, 1, input.length)`
writes `input[1..]` at offset 0, so the working buffer is
`input.drop 1` followed by zero fill up to the allocated length.
The loop XORs every byte of the working buffer except the last.
-/

/-- Embedding of `crcCalculation` (utils.ts). -/
def crcCalculation (input : List Nat) : Nat :=
  let bufLen := if input.length < 64 then YOKIS_PACKET_SIZE else input.length
  let buffer := input.drop 1 ++ List.replicate (bufLen - (input.length - 1)) 0
  List.foldl (fun chk b => chk ^^^ (b &&& 255)) 0 (buffer.take (buffer.length - 1))

/-- The working buffer as the spec describes it: a zero-initialised
buffer of length 64 (input shorter than 64) or the input length
(otherwise), overwritten from offset 0 with the input minus its first
byte. -/
def specWorkBuffer (input : List Nat) : List Nat :=
  let n := if input.length < 64 then 64 else input.length
  (List.range n).map (fun i => (input.drop 1).getD i 0)

/-- XOR of all bytes of a list. -/
def listXor (l : List Nat) : Nat := l.foldr (fun a b => a ^^^ b) 0

lemma length_specWorkBuffer (input : List Nat) :
    (specWorkBuffer input).length = if input.length < 64 then 64 else input.length := by
  simp [specWorkBuffer]

lemma workBuffer_eq (input : List Nat) :
    input.drop 1 ++
      List.replicate ((if input.length < 64 then YOKIS_PACKET_SIZE else input.length)
        - (input.length - 1)) 0 = specWorkBuffer input := by
  simp only [YOKIS_PACKET_SIZE]
  apply List.ext_getElem
  · simp only [specWorkBuffer, List.length_append, List.length_drop,
      List.length_replicate, List.length_map, List.length_range]
    by_cases h : input.length < 64
    · simp only [h, if_true]
      omega
    · simp only [h, if_false]
      omega
  · intro i h1 h2
    simp only [specWorkBuffer]
    by_cases hi : i < (input.drop 1).length
    · rw [List.getElem_append_left hi]
      simp only [List.getElem_map, List.getElem_range]
      rw [List.getD_eq_getElem _ _ hi]
    · rw [List.getElem_append_right (le_of_not_lt hi)]
      simp only [List.getElem_replicate, List.getElem_map, List.getElem_range]
      rw [List.getD_eq_default]
      omega

lemma foldl_xor_eq_listXor (l : List Nat) (init : Nat) :
    List.foldl (fun chk b => chk ^^^ b) init l = init ^^^ listXor l := by
  induction l generalizing init with
  | nil => simp [listXor]
  | cons a t ih =>
      simp only [List.foldl_cons, listXor, List.foldr_cons]
      rw [ih]
      have : ∀ x y z : Nat, (x ^^^ y) ^^^ z = x ^^^ (y ^^^ z) := fun x y z => Nat.xor_assoc x y z
      rw [this]
      rfl

lemma and_255_of_lt {b : Nat} (hb : b < 256) : b &&& 255 = b := by
  apply Nat.eq_of_testBit_eq
  intro i
  rw [Nat.testBit_land]
  by_cases hi : i < 8
  · have h255 : Nat.testBit 255 i = true := by interval_cases i <;> decide
    simp [h255]
  · have h2 : (256 : Nat) ≤ 2 ^ i := by
      calc (256 : Nat) = 2 ^ 8 := by norm_num
        _ ≤ 2 ^ i := Nat.pow_le_pow_right (by norm_num) (by omega)
    have hb' : Nat.testBit b i = false := Nat.testBit_lt_two_pow (lt_of_lt_of_le hb h2)
    simp [hb']

lemma foldl_mask_eq (l : List Nat) (h : ∀ b ∈ l, b < 256) (init : Nat) :
    List.foldl (fun chk b => chk ^^^ (b &&& 255)) init l =
      List.foldl (fun chk b => chk ^^^ b) init l := by
  induction l generalizing init with
  | nil => rfl
  | cons a t ih =>
      simp only [List.foldl_cons]
      rw [and_255_of_lt (h a (by simp))]
      exact ih (fun b hb => h b (by simp [hb])) _

lemma specWorkBuffer_bytes (input : List Nat) (hbytes : ∀ b ∈ input, b < 256) :
    ∀ b ∈ specWorkBuffer input, b < 256 := by
  intro b hb'
  simp only [specWorkBuffer, List.mem_map, List.mem_range] at hb'
  obtain ⟨i, -, rfl⟩ := hb'
  by_cases h : i < (input.drop 1).length
  · rw [List.getD_eq_getElem _ _ h]
    exact hbytes _ (List.drop_subset 1 input (List.getElem_mem h))
  · rw [List.getD_eq_default _ _ (le_of_not_lt h)]
    norm_num

/-- Claim C1: For every input byte buffer, `crcCalculation` returns the bitwise
XOR of all bytes except the last one of the working buffer obtained by copying
the input minus its first byte into a zero-initialized buffer whose length is
64 when the input is shorter than 64 bytes and the input's length otherwise;
and recomputing it on the same input yields the same byte (pure, deterministic
function). -/
theorem crcCalculation_xor_of_workBuffer (input : List Nat)
    (hbytes : ∀ b ∈ input, b < 256) :
    crcCalculation input = listXor (specWorkBuffer input).dropLast ∧
    crcCalculation input = crcCalculation input := by
  refine ⟨?_, rfl⟩
  show List.foldl (fun chk b => chk ^^^ (b &&& 255)) 0 _ = _
  rw [workBuffer_eq, ← List.dropLast_eq_take]
  rw [foldl_mask_eq _ (fun b hb =>
    specWorkBuffer_bytes input hbytes b (List.dropLast_subset _ hb))]
  rw [foldl_xor_eq_listXor, Nat.zero_xor]

/-- Witness for C1 at a concrete byte buffer. -/
theorem crcCalculation_xor_of_workBuffer_witness :
    crcCalculation [1, 2, 3, 4] = listXor (specWorkBuffer [1, 2, 3, 4]).dropLast ∧
    crcCalculation [1, 2, 3, 4] = crcCalculation [1, 2, 3, 4] :=
  crcCalculation_xor_of_workBuffer [1, 2, 3, 4] (by decide)

/-!
Component: Command Encoder (`buildCommand`, yokis.ts lines 133-173)

`buildCommand` parses the query string with `URLSearchParams` and reads
the `action` parameter.  The embedding models `URLSearchParams` query
parsing on raw bytes: an optional leading `?` is dropped, the string is
split on `&` (byte 38), empty segments are skipped, each segment is
split at its first `=` (byte 61) into key and value (value empty when
there is no `=`), and `get` returns the first value whose key matches.
Percent-decoding and `+`-decoding are not modelled (no query string in
this repository contains an escape).
-/

/-- One `key=value` segment split at the first `=`. -/
def splitKV (seg : List Nat) : List Nat × List Nat :=
  (seg.takeWhile (fun b => b ≠ 61), (seg.dropWhile (fun b => b ≠ 61)).drop 1)

/-- Model of `URLSearchParams(queryString).get(key)` on byte lists. -/
def getParam (key : List Nat) (queryString : List Nat) : Option (List Nat) :=
  let qs := if queryString.head? = some 63 then queryString.drop 1 else queryString
  let segs := (qs.splitOn 38).filter (fun s => s ≠ [])
  match segs.find? (fun seg => (splitKV seg).1 = key) with
  | some seg => some (splitKV seg).2
  | none => none

/-- Errors thrown by `buildCommand`. -/
inductive BuildErr where
  | unknownAction : Option (List Nat) → BuildErr
  | unknownVerb : List Nat → BuildErr
deriving DecidableEq, Repr

/-- Model of `Buffer.concat(list, totalLength)` for a single buffer:
truncate to `n` bytes, or zero-pad up to `n` bytes. -/
def padTrunc (n : Nat) (l : List Nat) : List Nat :=
  l.take n ++ List.replicate (n - l.length) 0

/-- The pre-checksum content assembled by `buildCommand`: 7-byte header
slot, 13-byte verb-name slot, fixed 4-byte separator, raw query string
(`bufferToSend` in the source). -/
def commandContent (header xmlPath queryString : List Nat) : List Nat :=
  padTrunc 7 header ++ padTrunc 13 xmlPath ++ [1, 0, 1, 0] ++ queryString

/-- Header template (5 bytes) for `command.xml` with `action=order`. -/
def orderHeader : List Nat := [0x3f, 0x55, 0x10, 0x07, 0x3f]

/-- Header template (5 bytes) for `command.xml` with `action=getstatus`. -/
def getstatusHeader : List Nat := [0x3f, 0x55, 0x10, 0x07, 0x46]

/-- Header template (5 bytes) for `server.xml`. -/
def serverHeader : List Nat := [0x2a, 0x55, 0x10, 0x07, 0x2a]

/-- Header template (5 bytes) for `info.xml`. -/
def infoHeader : List Nat := [0x19, 0x55, 0x10, 0x07, 0x19]

/-- Header template and optional forced packet size selected by
`buildCommand`'s verb/action dispatch (yokis.ts lines 137-155). -/
def commandHeader (xmlPath queryString : List Nat) :
    Except BuildErr (List Nat × Option Nat) :=
  if xmlPath = cmdXmlB then
    if getParam actionB queryString = some orderB then
      .ok (orderHeader, some YOKIS_PACKET_SIZE)
    else if getParam actionB queryString = some getstatusB then
      .ok (getstatusHeader, none)
    else
      .error (.unknownAction (getParam actionB queryString))
  else if xmlPath = serverXmlB then .ok (serverHeader, none)
  else if xmlPath = infoXmlB then .ok (infoHeader, none)
  else .error (.unknownVerb xmlPath)

/-- Embedding of `buildCommand` (yokis.ts lines 133-173). -/
def buildCommand (xmlPath : List Nat) (queryString : List Nat := []) :
    Except BuildErr (List Nat) :=
  match commandHeader xmlPath queryString with
  | .error e => .error e
  | .ok (header, packetSize) =>
      let bufferToSend := commandContent header xmlPath queryString
      let full := bufferToSend ++ [0, crcCalculation bufferToSend]
      .ok (match packetSize with
           | none => full
           | some n => padTrunc n full)

lemma length_padTrunc (n : Nat) (l : List Nat) : (padTrunc n l).length = n := by
  simp [padTrunc]
  omega

lemma length_commandContent (header xmlPath queryString : List Nat) :
    (commandContent header xmlPath queryString).length = 24 + queryString.length := by
  simp [commandContent, length_padTrunc]
  omega

/-- The query string of `getModuleStatus`/`toggleOn` with a one-byte module
id: "action=order&id=1&order=on". -/
def orderQueryB : List Nat :=
  [97, 99, 116, 105, 111, 110, 61, 111, 114, 100, 101, 114, 38, 105, 100, 61,
   49, 38, 111, 114, 100, 101, 114, 61, 111, 110]

/-- Claim C4: For every query string, `buildCommand` with verb `command.xml` and
`action=order` returns a buffer of exactly 64 bytes; for the `getstatus`
action and the `server.xml` and `info.xml` verbs it returns a buffer sized to
its content (7-byte header + 13-byte verb name + 4-byte separator + query
string) plus the trailing separator and checksum byte (26 + |query| bytes),
never forced to 64 bytes. -/
theorem buildCommand_sizes (qs : List Nat) :
    (getParam actionB qs = some orderB →
      (buildCommand cmdXmlB qs).map List.length = .ok 64) ∧
    (getParam actionB qs = some getstatusB →
      (buildCommand cmdXmlB qs).map List.length = .ok (26 + qs.length)) ∧
    (buildCommand serverXmlB qs).map List.length = .ok (26 + qs.length) ∧
    (buildCommand infoXmlB qs).map List.length = .ok (26 + qs.length) := by
  have hno : getstatusB ≠ orderB := by decide
  refine ⟨fun ho => ?_, fun hg => ?_, ?_, ?_⟩
  · simp [buildCommand, commandHeader, ho, YOKIS_PACKET_SIZE, length_padTrunc,
      Except.map]
  · simp [buildCommand, commandHeader, hg, hno, length_commandContent,
      Except.map]
    omega
  · have h1 : serverXmlB ≠ cmdXmlB := by decide
    simp [buildCommand, commandHeader, h1, length_commandContent, Except.map]
    omega
  · have h1 : infoXmlB ≠ cmdXmlB := by decide
    have h2 : infoXmlB ≠ serverXmlB := by decide
    simp [buildCommand, commandHeader, h1, h2, length_commandContent,
      Except.map]
    omega

/-- Witness for C4 at the concrete order query used by `toggleOn`. -/
theorem buildCommand_sizes_witness :
    (buildCommand cmdXmlB orderQueryB).map List.length = .ok 64 :=
  (buildCommand_sizes orderQueryB).1 (by decide)

/-- Claim C8: `buildCommand` fails with `UnknownVerb` for every verb string
outside the recognized values, fails with `UnknownAction` when the verb is
`command.xml` and the `action` query parameter is neither "order" nor
"getstatus", and returns a buffer without failing for every recognized verb
with a valid action. -/
theorem buildCommand_error_taxonomy :
    (∀ verb qs, verb ≠ cmdXmlB → verb ≠ serverXmlB → verb ≠ infoXmlB →
      buildCommand verb qs = .error (.unknownVerb verb)) ∧
    (∀ qs, getParam actionB qs ≠ some orderB →
      getParam actionB qs ≠ some getstatusB →
      buildCommand cmdXmlB qs = .error (.unknownAction (getParam actionB qs))) ∧
    (∀ qs, (getParam actionB qs = some orderB ∨
            getParam actionB qs = some getstatusB) →
      (buildCommand cmdXmlB qs).isOk = true) ∧
    (∀ qs, (buildCommand serverXmlB qs).isOk = true ∧
           (buildCommand infoXmlB qs).isOk = true) := by
  refine ⟨?_, ?_, ?_, ?_⟩
  · intro verb qs h1 h2 h3
    simp [buildCommand, commandHeader, h1, h2, h3]
  · intro qs h1 h2
    simp [buildCommand, commandHeader, h1, h2]
  · intro qs h
    rcases h with h | h
    · simp [buildCommand, commandHeader, h, Except.isOk, Except.toBool]
    · have hno : getstatusB ≠ orderB := by decide
      simp [buildCommand, commandHeader, h, hno, Except.isOk, Except.toBool]
  · intro qs
    have h1 : serverXmlB ≠ cmdXmlB := by decide
    have h2 : infoXmlB ≠ cmdXmlB := by decide
    have h3 : infoXmlB ≠ serverXmlB := by decide
    constructor
    · simp [buildCommand, commandHeader, h1, Except.isOk, Except.toBool]
    · simp [buildCommand, commandHeader, h2, h3, Except.isOk, Except.toBool]

/-- Witness for C8 at concrete inputs. -/
theorem buildCommand_error_taxonomy_witness :
    buildCommand [120] [] = .error (.unknownVerb [120]) ∧
    buildCommand cmdXmlB [] = .error (.unknownAction (getParam actionB [])) ∧
    (buildCommand cmdXmlB orderQueryB).isOk = true ∧
    (buildCommand serverXmlB []).isOk = true := by
  refine ⟨?_, ?_, ?_, ?_⟩
  · exact buildCommand_error_taxonomy.1 [120] [] (by decide) (by decide) (by decide)
  · exact buildCommand_error_taxonomy.2.1 [] (by decide) (by decide)
  · exact buildCommand_error_taxonomy.2.2.1 orderQueryB (Or.inl (by decide))
  · exact (buildCommand_error_taxonomy.2.2.2 []).1

/-- Counterexample to claim C3: For the order command built by `toggleOn` with
module id "1", the returned 64-byte buffer ends in a zero pad byte, while the
checksum over the content is 83 ≠ 0: the checksum byte is *not* the last byte
of the returned command buffer. -/
theorem buildCommand_checksum_not_last :
    ((buildCommand cmdXmlB orderQueryB).toOption.getD []).getLast? = some 0 ∧
    crcCalculation (commandContent orderHeader cmdXmlB orderQueryB) = 83 := by
  constructor
  · rfl
  · rfl

/-- Claim C3 as amended: The checksum byte is computed by `crcCalculation` over
the pre-separator content (which internally excludes the content's first byte
and pads to the 64-byte packet length) and is appended after a `0x00`
separator.  For `getstatus`, `server.xml` and `info.xml` commands it is the
last byte of the returned buffer; for `action=order` the result is
padded/truncated to exactly 64 bytes *after* the separator and checksum are
appended, so the checksum is not in general the final byte. -/
theorem buildCommand_checksum_position (qs : List Nat) :
    (getParam actionB qs = some getstatusB →
      buildCommand cmdXmlB qs =
        .ok (commandContent getstatusHeader cmdXmlB qs ++
             [0, crcCalculation (commandContent getstatusHeader cmdXmlB qs)]) ∧
      ((buildCommand cmdXmlB qs).toOption.getD []).getLast? =
        some (crcCalculation (commandContent getstatusHeader cmdXmlB qs))) ∧
    (buildCommand serverXmlB qs =
        .ok (commandContent serverHeader serverXmlB qs ++
             [0, crcCalculation (commandContent serverHeader serverXmlB qs)]) ∧
      ((buildCommand serverXmlB qs).toOption.getD []).getLast? =
        some (crcCalculation (commandContent serverHeader serverXmlB qs))) ∧
    (buildCommand infoXmlB qs =
        .ok (commandContent infoHeader infoXmlB qs ++
             [0, crcCalculation (commandContent infoHeader infoXmlB qs)]) ∧
      ((buildCommand infoXmlB qs).toOption.getD []).getLast? =
        some (crcCalculation (commandContent infoHeader infoXmlB qs))) ∧
    (getParam actionB qs = some orderB →
      buildCommand cmdXmlB qs =
        .ok (padTrunc 64 (commandContent orderHeader cmdXmlB qs ++
             [0, crcCalculation (commandContent orderHeader cmdXmlB qs)]))) := by
  have hgl : ∀ (l : List Nat) (c : Nat), (l ++ [0, c]).getLast? = some c := by
    intro l c
    have : l ++ [0, c] = (l ++ [0]) ++ [c] := by simp
    rw [this, List.getLast?_concat]
  have hno : getstatusB ≠ orderB := by decide
  refine ⟨fun hg => ?_, ?_, ?_, fun ho => ?_⟩
  · constructor
    · simp [buildCommand, commandHeader, hg, hno]
    · simp [buildCommand, commandHeader, hg, hno, hgl, Except.toOption]
  · have h1 : serverXmlB ≠ cmdXmlB := by decide
    constructor
    · simp [buildCommand, commandHeader, h1]
    · simp [buildCommand, commandHeader, h1, hgl, Except.toOption]
  · have h1 : infoXmlB ≠ cmdXmlB := by decide
    have h2 : infoXmlB ≠ serverXmlB := by decide
    constructor
    · simp [buildCommand, commandHeader, h1, h2]
    · simp [buildCommand, commandHeader, h1, h2, hgl, Except.toOption]
  · simp [buildCommand, commandHeader, ho, YOKIS_PACKET_SIZE]

/-- Witness for the amended C3 at concrete inputs. -/
theorem buildCommand_checksum_position_witness :
    buildCommand cmdXmlB orderQueryB =
      .ok (padTrunc 64 (commandContent orderHeader cmdXmlB orderQueryB ++
           [0, crcCalculation (commandContent orderHeader cmdXmlB orderQueryB)])) :=
  (buildCommand_checksum_position orderQueryB).2.2.2 (by decide)

/-!
Component: Response Decoder (`trimBuffer`, utils.ts lines 17-23;
`cleanBufferData`, yokis.ts lines 181-202)

```ts
export const trimBuffer = (input: Buffer) => {
    while (input.lastIndexOf(Buffer.from([0x0])) != -1 && input.lastIndexOf(Buffer.from([0x0])) > 0) {
        input = input.slice(0, input.lastIndexOf(Buffer.from([0x0])));
    }
    return input;
}
```

Each loop pass truncates at the *last* zero byte, as long as that zero
sits at an index > 0; the loop runs until no zero remains at an index
above 0.  The loop is embedded with an explicit fuel (the input length
bounds the number of passes, since every pass strictly shortens the
buffer).
-/

/-- Index of the last `0x00` byte, `Buffer.lastIndexOf(Buffer.from([0x0]))`. -/
def lastIndexOfZero : List Nat → Option Nat
  | [] => none
  | a :: rest =>
      match lastIndexOfZero rest with
      | some i => some (i + 1)
      | none => if a = 0 then some 0 else none

/-- One-pass-per-fuel-unit embedding of `trimBuffer`'s while loop. -/
def trimGo : Nat → List Nat → List Nat
  | 0, l => l
  | fuel + 1, l =>
      match lastIndexOfZero l with
      | some i => if 0 < i then trimGo fuel (l.take i) else l
      | none => l

/-- Embedding of `trimBuffer` (utils.ts lines 17-23). -/
def trimBuffer (input : List Nat) : List Nat := trimGo input.length input

/-- Closed form of `trimBuffer`'s effect: keep the first byte, then keep
bytes until the first `0x00` at an index ≥ 1 (everything from that zero
on is removed). -/
def zeroTrunc : List Nat → List Nat
  | [] => []
  | a :: rest => a :: rest.takeWhile (fun b => b ≠ 0)

lemma lastIndexOfZero_none {l : List Nat} (h : lastIndexOfZero l = none) :
    ∀ b ∈ l, b ≠ 0 := by
  induction l with
  | nil => simp
  | cons a rest ih =>
      intro b hb
      simp only [lastIndexOfZero] at h
      rcases hrest : lastIndexOfZero rest with - | i
      · rw [hrest] at h
        rcases List.mem_cons.1 hb with rfl | hb'
        · intro hb0
          simp [hb0] at h
        · exact ih hrest b hb'
      · rw [hrest] at h
        simp at h

lemma lastIndexOfZero_spec {l : List Nat} {i : Nat}
    (h : lastIndexOfZero l = some i) :
    i < l.length ∧ l.getD i 1 = 0 ∧ ∀ j, i < j → j < l.length → l.getD j 1 ≠ 0 := by
  induction l generalizing i with
  | nil => simp [lastIndexOfZero] at h
  | cons a rest ih =>
      simp only [lastIndexOfZero] at h
      rcases hrest : lastIndexOfZero rest with - | k
      · rw [hrest] at h
        by_cases ha : a = 0
        · simp only [ha, if_true] at h
          obtain rfl : (0 : Nat) = i := Option.some_injective _ h
          refine ⟨by simp, by simp [ha], ?_⟩
          intro j hj hjl
          obtain ⟨j', rfl⟩ : ∃ j', j = j' + 1 := ⟨j - 1, by omega⟩
          simp only [List.getD_cons_succ]
          intro hz
          have hmem : (0 : Nat) ∈ rest := by
            have hj' : j' < rest.length := by simpa using hjl
            have := List.getD_eq_getElem rest 1 hj'
            rw [hz] at this
            exact this ▸ List.getElem_mem hj'
          exact lastIndexOfZero_none hrest 0 hmem rfl
        · simp [ha] at h
      · rw [hrest] at h
        obtain rfl : k + 1 = i := Option.some_injective _ h
        obtain ⟨h1, h2, h3⟩ := ih hrest
        refine ⟨by simpa using h1, by simpa using h2, ?_⟩
        intro j hj hjl
        obtain ⟨j', rfl⟩ : ∃ j', j = j' + 1 := ⟨j - 1, by omega⟩
        simp only [List.getD_cons_succ]
        exact h3 j' (by omega) (by simpa using hjl)

lemma takeWhile_take_comm (p : Nat → Bool) :
    ∀ (n : Nat) (l : List Nat), (l.take n).takeWhile p = (l.takeWhile p).take n := by
  intro n l
  induction l generalizing n with
  | nil => simp
  | cons a rest ih =>
      cases n with
      | zero => simp
      | succ m =>
          by_cases h : p a
          · simp [List.takeWhile_cons, h, ih]
          · simp [List.takeWhile_cons, h]

lemma length_takeWhile_le_of_zero :
    ∀ (l : List Nat) (j : Nat), j < l.length → l.getD j 1 = 0 →
      (l.takeWhile (fun b => b ≠ 0)).length ≤ j := by
  intro l
  induction l with
  | nil => simp
  | cons a rest ih =>
      intro j hj hz
      cases j with
      | zero =>
          simp only [List.getD_cons_zero] at hz
          simp [List.takeWhile_cons, hz]
      | succ j' =>
          by_cases ha : a = 0
          · simp [List.takeWhile_cons, ha]
          · have hrec := ih j' (by simpa using hj) (by simpa using hz)
            have hpa : (decide (a ≠ 0)) = true := by simp [ha]
            simp only [List.takeWhile_cons, hpa, if_true, List.length_cons]
            omega

lemma zeroTrunc_of_tail_nonzero {l : List Nat}
    (h : ∀ b ∈ l.drop 1, b ≠ 0) : zeroTrunc l = l := by
  cases l with
  | nil => rfl
  | cons a rest =>
      simp only [zeroTrunc]
      rw [List.takeWhile_eq_self_iff.mpr]
      intro b hb
      simpa using h b (by simpa using hb)

lemma zeroTrunc_take {l : List Nat} {i : Nat} (hi : 0 < i) (hil : i < l.length)
    (hz : l.getD i 1 = 0) : zeroTrunc (l.take i) = zeroTrunc l := by
  cases l with
  | nil => simp at hil
  | cons a rest =>
      obtain ⟨i', rfl⟩ : ∃ i', i = i' + 1 := ⟨i - 1, by omega⟩
      simp only [List.take_succ_cons, zeroTrunc]
      rw [takeWhile_take_comm]
      have hlen : (rest.takeWhile (fun b => b ≠ 0)).length ≤ i' :=
        length_takeWhile_le_of_zero rest i' (by simpa using hil) (by simpa using hz)
      rw [List.take_of_length_le hlen]

lemma trimGo_eq_zeroTrunc : ∀ (fuel : Nat) (l : List Nat), l.length ≤ fuel →
    trimGo fuel l = zeroTrunc l := by
  intro fuel
  induction fuel with
  | zero =>
      intro l hl
      have : l = [] := List.eq_nil_of_length_eq_zero (by omega)
      subst this
      rfl
  | succ f ih =>
      intro l hl
      simp only [trimGo]
      rcases hz : lastIndexOfZero l with - | i
      · exact (zeroTrunc_of_tail_nonzero
          (fun b hb => lastIndexOfZero_none hz b (List.drop_subset 1 l hb))).symm
      · obtain ⟨h1, h2, h3⟩ := lastIndexOfZero_spec hz
        by_cases hi : 0 < i
        · simp only [hi, if_true]
          rw [ih (l.take i) (by simp; omega)]
          exact zeroTrunc_take hi h1 h2
        · simp only [hi, if_false]
          obtain rfl : i = 0 := by omega
          refine (zeroTrunc_of_tail_nonzero ?_).symm
          intro b hb
          obtain ⟨j, hj, rfl⟩ := List.getElem_of_mem hb
          intro hb0
          have hjl : j + 1 < l.length := by
            have := List.length_drop 1 l
            omega
          have hd := List.getElem_drop l (i := 1) (j := j) (h := hj)
          have hz1 : l.getD (1 + j) 1 = 0 := by
            rw [List.getD_eq_getElem _ _ (show 1 + j < l.length by omega)]
            rw [← hd]
            exact hb0
          exact h3 (1 + j) (by omega) (by omega) hz1

/-- Lemma: `trimBuffer` truncates at the first `0x00` byte at index ≥ 1. -/
lemma trimBuffer_eq_zeroTrunc (input : List Nat) :
    trimBuffer input = zeroTrunc input :=
  trimGo_eq_zeroTrunc input.length input le_rfl

/-- Remainder of `s` after the first occurrence of the contiguous
substring `pat`; `none` when `pat` does not occur.  A JS regex of the
form `.*pat.*` matches a string iff `pat` occurs in it. -/
def dropAfterSub (pat : List Nat) : List Nat → Option (List Nat)
  | [] => if pat = [] then some [] else none
  | b :: s =>
      if pat.isPrefixOf (b :: s) then some (List.drop pat.length (b :: s))
      else dropAfterSub pat s

/-- Model of `input.toString().match(/.*pat.*/) !== null` on bytes. -/
def containsSub (pat s : List Nat) : Bool := (dropAfterSub pat s).isSome

/-- Constant `YOKIS_SERVER_XML_SEPARATOR` (yokis.ts line 25). -/
def YOKIS_SERVER_XML_SEPARATOR : List Nat := [0, 0, 0, 1, 0, 1, 0]

/-- Constant `YOKIS_NEXT_COMMAND_XML_SEPARATOR` (yokis.ts line 27). -/
def YOKIS_NEXT_COMMAND_XML_SEPARATOR : List Nat := [0, 0, 1, 0, 0, 0]

/-- Constant `YOKIS_NEXT_BUFFER_HEADER` (yokis.ts line 28). -/
def YOKIS_NEXT_BUFFER_HEADER : List Nat := [0x18, 0x55, 0x12, 0x07, 0x18, 0, 0]

/-- The verb-marker prefix drop of `cleanBufferData` (yokis.ts lines
186-190): when the text contains "command.xml" (checked first) or
"server.xml", drop the corresponding fixed-length framing prefix. -/
def markerDrop (input : List Nat) : List Nat :=
  if containsSub cmdXmlB input then
    input.drop (YOKIS_NEXT_BUFFER_HEADER.length +
      YOKIS_NEXT_COMMAND_XML_SEPARATOR.length + cmdXmlB.length)
  else if containsSub serverXmlB input then
    input.drop (YOKIS_NEXT_BUFFER_HEADER.length +
      YOKIS_SERVER_XML_SEPARATOR.length + serverXmlB.length)
  else input

/-- Byte class of the final `replace(/^[\s﻿\xA0\0]+|[\s﻿\xA0\0]+$/g, '')`:
whitespace, null and NBSP (the BOM is outside the single-byte range). -/
def isStripChar (b : Nat) : Bool :=
  b = 0 || b = 9 || b = 10 || b = 11 || b = 12 || b = 13 || b = 32 || b = 160

/-- Removing one leading and one trailing run of strip characters. -/
def stripEnds (l : List Nat) : List Nat :=
  ((l.dropWhile isStripChar).reverse.dropWhile isStripChar).reverse

/-- Embedding of `cleanBufferData` (yokis.ts lines 181-202). -/
def cleanBufferData (input : List Nat) : List Nat :=
  let s1 := input.drop 1
  let s2 := markerDrop s1
  let s3 := if s2.getLast? = some 0 then (trimBuffer s2).dropLast else s2
  stripEnds s3

lemma dropWhile_eq_self_of (p : Nat → Bool) (l : List Nat)
    (h : ∀ b ∈ l, p b = false) : l.dropWhile p = l := by
  cases l with
  | nil => rfl
  | cons a rest =>
      rw [List.dropWhile_cons, h a (by simp)]
      simp

lemma stripEnds_eq_self (l : List Nat) (h : ∀ b ∈ l, isStripChar b = false) :
    stripEnds l = l := by
  unfold stripEnds
  rw [dropWhile_eq_self_of _ _ h, dropWhile_eq_self_of, List.reverse_reverse]
  intro b hb
  exact h b (by simpa using hb)

/-- Counterexample to claim C6: Take the raw frame `[9, 32, 65, 0, 66, 0]`.
After the unconditional first-byte drop the remaining input is
`[32, 65, 0, 66, 0]` (no verb marker applies; the final byte is null).
The claim says exactly the trailing null run plus one more trailing byte
are removed, which would leave `[32, 65, 0]` (or `[65]` after a final
whitespace/null strip).  The code instead truncates at the *first*
null byte at index ≥ 1 — removing `0, 66, 0` — then drops one more byte
and strips whitespace, returning `[]`. -/
theorem cleanBufferData_trailing_claim_fails :
    markerDrop (List.drop 1 [9, 32, 65, 0, 66, 0]) = [32, 65, 0, 66, 0] ∧
    ([32, 65, 0, 66, 0] : List Nat).getLast? = some 0 ∧
    cleanBufferData [9, 32, 65, 0, 66, 0] = [] ∧
    ([] : List Nat) ≠ [32, 65, 0] ∧ ([] : List Nat) ≠ [65] := by
  refine ⟨by decide, by decide, ?_, by decide, by decide⟩
  decide

/-- Claim C6 as amended: For every raw response frame: after the first-byte
drop and any verb-marker prefix drop, when the remaining input's final
byte is null the code truncates at the first null byte at index ≥ 1
(removing that null, the rest of the buffer, and then one further
trailing byte); when the final byte is non-null no null-trimming
happens.  In both cases the result is finally stripped of one leading
and one trailing run of whitespace/null/NBSP bytes; in particular the
content is returned untouched (aside from the drops) only when it also
contains no such strippable bytes. -/
theorem cleanBufferData_decode (input : List Nat) :
    cleanBufferData input =
      stripEnds (if (markerDrop (input.drop 1)).getLast? = some 0
                 then (zeroTrunc (markerDrop (input.drop 1))).dropLast
                 else markerDrop (input.drop 1)) ∧
    (containsSub cmdXmlB (input.drop 1) = false →
     containsSub serverXmlB (input.drop 1) = false →
     (input.drop 1).getLast? ≠ some 0 →
     (∀ b ∈ input.drop 1, isStripChar b = false) →
     cleanBufferData input = input.drop 1) := by
  constructor
  · simp only [cleanBufferData, trimBuffer_eq_zeroTrunc]
  · intro h1 h2 h3 h4
    rw [List.drop_one] at h1 h2 h3 h4 ⊢
    simp [cleanBufferData, markerDrop, h1, h2, h3]
    exact stripEnds_eq_self _ h4

/-- Witness for the amended C6 at a concrete frame with a non-null final
byte and no strippable bytes. -/
theorem cleanBufferData_decode_witness :
    cleanBufferData [9, 65, 66] = List.drop 1 [9, 65, 66] :=
  (cleanBufferData_decode [9, 65, 66]).2 (by decide) (by decide) (by decide)
    (by decide)

/-!
Component: Packet Chunker (`getChunkedBuffer`, utils.ts lines 50-60)

```ts
export const getChunkedBuffer = (buffer: Buffer, chunkSize: number) => {
    const regexChunk = new RegExp(`.{1,${chunkSize}}`, 'g');
    const bufferMatches = buffer.toString().match(regexChunk) ?? [];

    return bufferMatches.map(function (chunk, index) {
        if (index > 0) {
            return Buffer.concat([Buffer.from([0x07]), Buffer.from(chunk)]);
        }
        return Buffer.from(chunk);
    });
}
```

A global match of `.{1,n}` scans left to right; `.` matches any
character *except a line terminator* (`\n`, `\r` in the single-byte
range), so line terminators are skipped between matches and each match
is a maximal-up-to-`n` greedy run of non-terminator characters.
-/

/-- Line terminators not matched by `.` in a JS regex (single-byte range). -/
def isLineTerm (b : Nat) : Bool := b = 10 || b = 13

/-- Fuel-indexed global scan of `.{1,n}`: skip a line terminator, or take
up to `n` leading non-terminator bytes as the next match. -/
def chunkGo (n : Nat) : Nat → List Nat → List (List Nat)
  | 0, _ => []
  | _ + 1, [] => []
  | fuel + 1, b :: s =>
      if isLineTerm b then chunkGo n fuel s
      else
        let chunk := ((b :: s).takeWhile (fun c => !isLineTerm c)).take n
        chunk :: chunkGo n fuel (List.drop chunk.length (b :: s))

/-- Model of `buffer.toString().match(new RegExp('.{1,' + n + '}', 'g')) ?? []`. -/
def chunkMatches (buffer : List Nat) (chunkSize : Nat) : List (List Nat) :=
  chunkGo chunkSize buffer.length buffer

/-- Embedding of `getChunkedBuffer` (utils.ts lines 50-60): every chunk
after the first gets a single `0x07` continuation marker prefixed. -/
def getChunkedBuffer (buffer : List Nat) (chunkSize : Nat) : List (List Nat) :=
  match chunkMatches buffer chunkSize with
  | [] => []
  | c :: cs => c :: cs.map (fun chunk => 7 :: chunk)

/-- The payload bytes of a chunk sequence: the continuation marker is
stripped from every chunk after the first (the claim's reading). -/
def chunkPayloads : List (List Nat) → List (List Nat)
  | [] => []
  | c :: cs => c :: cs.map (List.drop 1)

/-- Counterexample to claim C5: For the buffer "a\nb" (`[97, 10, 98]`) the
chunk regex skips the line feed, the chunks are `["a", "b"]`, and the
reassembled payload text "ab" differs from the original buffer. -/
theorem getChunkedBuffer_roundtrip_fails :
    getChunkedBuffer [97, 10, 98] 64 = [[97], [7, 98]] ∧
    (chunkPayloads (getChunkedBuffer [97, 10, 98] 64)).flatten = [97, 98] ∧
    ([97, 98] : List Nat) ≠ [97, 10, 98] := by
  refine ⟨by decide, by decide, by decide⟩

lemma chunkGo_flatten_and_le (n : Nat) (hn : 1 ≤ n) :
    ∀ (fuel : Nat) (l : List Nat), l.length ≤ fuel →
      (∀ b ∈ l, isLineTerm b = false) →
      (chunkGo n fuel l).flatten = l ∧
      ∀ c ∈ chunkGo n fuel l, c.length ≤ n := by
  intro fuel
  induction fuel with
  | zero =>
      intro l hl _
      have : l = [] := List.eq_nil_of_length_eq_zero (by omega)
      subst this
      simp [chunkGo]
  | succ f ih =>
      intro l hl hterm
      cases l with
      | nil => simp [chunkGo]
      | cons b s =>
          have hb : isLineTerm b = false := hterm b (by simp)
          simp only [chunkGo, hb, Bool.false_eq_true, if_false]
          have htw : (b :: s).takeWhile (fun c => !isLineTerm c) = b :: s :=
            List.takeWhile_eq_self_iff.mpr (by
              intro a ha
              simp [hterm a ha])
          rw [htw]
          have hlen : ((b :: s).take n).length = min n (s.length + 1) := by
            simp
          have hdrop_le : (List.drop ((b :: s).take n).length (b :: s)).length ≤ f := by
            simp only [List.length_drop]
            simp only [List.length_cons] at hl ⊢
            omega
          have hmem : ∀ a ∈ List.drop ((b :: s).take n).length (b :: s),
              isLineTerm a = false :=
            fun a ha => hterm a (List.drop_subset _ _ ha)
          obtain ⟨ih1, ih2⟩ := ih _ hdrop_le hmem
          constructor
          · simp only [List.flatten_cons, ih1]
            have hdd : List.drop (List.take n (b :: s)).length (b :: s) =
                List.drop n (b :: s) := by
              simp only [List.length_take]
              rcases le_total n (b :: s).length with h | h
              · rw [min_eq_left h]
              · rw [min_eq_right h, List.drop_length, List.drop_eq_nil_of_le h]
            rw [hdd, List.take_append_drop]
          · intro c hc
            rcases List.mem_cons.1 hc with rfl | hc'
            · simp
            · exact ih2 c hc'

/-- Claim C5 as amended: For every input buffer containing no line
terminator bytes (`0x0A`, `0x0D`) — both shorter and longer than the
chunk size — concatenating the payload bytes of all chunks returned by
`getChunkedBuffer` (stripping the single `0x07` continuation-marker byte
from every chunk after the first) reconstructs the original buffer's
textual content exactly, and every chunk's payload is at most the chunk
size.  With a line terminator in the buffer the terminator byte is lost
(see the counterexample). -/
theorem getChunkedBuffer_roundtrip (buffer : List Nat) (chunkSize : Nat)
    (hn : 1 ≤ chunkSize) (hterm : ∀ b ∈ buffer, isLineTerm b = false) :
    (chunkPayloads (getChunkedBuffer buffer chunkSize)).flatten = buffer ∧
    ∀ c ∈ chunkPayloads (getChunkedBuffer buffer chunkSize),
      c.length ≤ chunkSize := by
  obtain ⟨h1, h2⟩ := chunkGo_flatten_and_le chunkSize hn buffer.length buffer
    le_rfl hterm
  have hpay : chunkPayloads (getChunkedBuffer buffer chunkSize) =
      chunkMatches buffer chunkSize := by
    unfold getChunkedBuffer chunkPayloads
    rcases chunkMatches buffer chunkSize with - | ⟨c, cs⟩
    · rfl
    · simp only [List.map_map, List.cons.injEq, true_and]
      induction cs with
      | nil => rfl
      | cons d ds ihd => simp [ihd]
  rw [hpay]
  exact ⟨h1, h2⟩

/-- Witness for the amended C5 at a terminator-free buffer longer than
the chunk size 2. -/
theorem getChunkedBuffer_roundtrip_witness :
    (chunkPayloads (getChunkedBuffer [65, 66, 67, 68, 69] 2)).flatten =
      [65, 66, 67, 68, 69] ∧
    ∀ c ∈ chunkPayloads (getChunkedBuffer [65, 66, 67, 68, 69] 2),
      c.length ≤ 2 :=
  getChunkedBuffer_roundtrip [65, 66, 67, 68, 69] 2 (by decide) (by decide)

/-!
Component: JSON Reassembler (`getJSONResponse`, yokis.ts lines 296-349)

The loop runs `for (let i = 0; i < 15; i++)`.  Each iteration sends a
fixed re-query, reads one meaningful inbound frame (plus one drained
empty read), and classifies the frame text:

* `/.*command\.xml.*o.*/` — "carrying more data" marker: skip and
  continue;
* otherwise `/.*command\.xml.*\{.*/` — fragment with a JSON opening
  brace: `jsonResult += cleanBufferData(result)`, break if the
  accumulation now parses as JSON;
* otherwise, if `jsonResult.length` — continuation fragment: append the
  cleaned frame, break if the accumulation parses;
* otherwise — throw (`Something went wrong`).

After the loop (by break or exhaustion), return `JSON.parse(jsonResult)`
when it parses, else log and return `null`.

A regex `.*A.*B.*` matches iff some occurrence of `A` is followed later
by an occurrence of `B`; taking the *first* occurrence of `A` is
equivalent, because the text after any later occurrence is a suffix of
the text after the first.

`JSON.parse` is a platform primitive: the loop depends on it only
through the boolean `canBeParsedAsJSON` (utils.ts lines 31-41), so the
embedding takes that boolean as an explicit oracle `parses`, and models
the parsed return value by the accumulated text that parsed.  The
inbound frame of iteration `i` is `frames i`.
-/

/-- Model of `result.toString().match(/.*command\.xml.*o.*/) !== null`. -/
def matchMoreData (s : List Nat) : Bool :=
  match dropAfterSub cmdXmlB s with
  | some rest => rest.contains 111
  | none => false

/-- Model of `result.toString().match(/.*command\.xml.*\x7b.*/) !== null`. -/
def matchBrace (s : List Nat) : Bool :=
  match dropAfterSub cmdXmlB s with
  | some rest => rest.contains 123
  | none => false

/-- Outcome of one loop iteration of `getJSONResponse`. -/
inductive StepRes where
  | next : List Nat → StepRes
  | brk : List Nat → StepRes
  | fault : List Nat → StepRes
deriving DecidableEq, Repr

/-- One iteration body of `getJSONResponse` on frame `r` with current
accumulation `acc` (yokis.ts lines 311-340). -/
def jsonStep (parses : List Nat → Bool) (r acc : List Nat) : StepRes :=
  if matchMoreData r then .next acc
  else if matchBrace r then
    let a := acc ++ cleanBufferData r
    if parses a then .brk a else .next a
  else if acc ≠ [] then
    let a := acc ++ cleanBufferData r
    if parses a then .brk a else .next a
  else .fault r

/-- Result of `getJSONResponse`: a parsed JSON value (identified by the
accumulated text that parsed), the absent result `null`, or a thrown
`Something went wrong` error carrying the offending frame. -/
inductive JRes where
  | parsed : List Nat → JRes
  | absent : JRes
  | fault : List Nat → JRes
deriving DecidableEq, Repr

/-- The loop of `getJSONResponse` with `fuel` iterations remaining,
at iteration index `i`, with accumulation `acc`; on exhaustion the
post-loop parse check runs (yokis.ts lines 343-348). -/
def jsonLoopGo (parses : List Nat → Bool) (frames : Nat → List Nat) :
    Nat → Nat → List Nat → JRes
  | 0, _, acc => if parses acc then .parsed acc else .absent
  | fuel + 1, i, acc =>
      match jsonStep parses (frames i) acc with
      | .brk a => .parsed a
      | .fault r => .fault r
      | .next a => jsonLoopGo parses frames fuel (i + 1) a

/-- Embedding of `getJSONResponse` (yokis.ts lines 296-349): 15
iterations, starting from the empty accumulation. -/
def getJSONResponse (parses : List Nat → Bool) (frames : Nat → List Nat) : JRes :=
  jsonLoopGo parses frames 15 0 []

/-- The accumulation held before iteration `i`, following `jsonStep`. -/
def accSeq (parses : List Nat → Bool) (frames : Nat → List Nat) : Nat → List Nat
  | 0 => []
  | i + 1 =>
      match jsonStep parses (frames i) (accSeq parses frames i) with
      | .next a => a
      | .brk a => a
      | .fault _ => accSeq parses frames i

lemma jsonStep_next_of (parses : List Nat → Bool) (r acc : List Nat)
    (hp : ∀ s, parses s = false) (hmd : matchMoreData r = false)
    (h : matchBrace r = true ∨ acc ≠ []) :
    jsonStep parses r acc = .next (acc ++ cleanBufferData r) := by
  rcases h with hb | hacc
  · simp [jsonStep, hmd, hb, hp]
  · by_cases hb : matchBrace r = true
    · simp [jsonStep, hmd, hb, hp]
    · simp [jsonStep, hmd, hb, hacc, hp]

lemma jsonStep_brk_inv {parses : List Nat → Bool} {r acc a : List Nat}
    (h : jsonStep parses r acc = .brk a) : parses a = true := by
  unfold jsonStep at h
  by_cases hpa : parses (acc ++ cleanBufferData r) = true <;>
    split_ifs at h <;> simp_all

lemma jsonStep_next_inv {parses : List Nat → Bool} {r acc a : List Nat}
    (h : jsonStep parses r acc = .next a) :
    a = acc ∨ (parses a = false ∧ a = acc ++ cleanBufferData r) := by
  unfold jsonStep at h
  by_cases hpa : parses (acc ++ cleanBufferData r) = true <;>
    split_ifs at h <;> simp_all

lemma jsonLoopGo_absent (parses : List Nat → Bool) (frames : Nat → List Nat)
    (hp : ∀ s, parses s = false)
    (hf : ∀ j, j < 15 → matchMoreData (frames j) = false ∧
      (matchBrace (frames j) = true ∨ accSeq parses frames j ≠ [])) :
    ∀ fuel i, fuel + i = 15 →
      jsonLoopGo parses frames fuel i (accSeq parses frames i) = .absent := by
  intro fuel
  induction fuel with
  | zero =>
      intro i hi
      simp [jsonLoopGo, hp]
  | succ f ihf =>
      intro i hi
      obtain ⟨hmd, hbr⟩ := hf i (by omega)
      have hstep := jsonStep_next_of parses (frames i) (accSeq parses frames i)
        hp hmd hbr
      have hnext : accSeq parses frames (i + 1) =
          accSeq parses frames i ++ cleanBufferData (frames i) := by
        simp [accSeq, hstep]
      simp only [jsonLoopGo, hstep]
      rw [← hnext]
      exact ihf (i + 1) (by omega)

lemma jsonLoopGo_parsed (parses : List Nat → Bool) (frames : Nat → List Nat) :
    ∀ fuel i s, fuel + i = 15 →
      jsonLoopGo parses frames fuel i (accSeq parses frames i) = .parsed s →
      parses s = true ∧ ∃ k, k ≤ 15 ∧ s = accSeq parses frames k ∧
        ∀ j, i ≤ j → j + 1 < k →
          parses (accSeq parses frames (j + 1)) = false ∨
          accSeq parses frames (j + 1) = accSeq parses frames j := by
  intro fuel
  induction fuel with
  | zero =>
      intro i s hi heq
      simp only [jsonLoopGo] at heq
      by_cases hpi : parses (accSeq parses frames i) = true
      · rw [if_pos hpi] at heq
        injection heq with hs
        subst hs
        exact ⟨hpi, i, by omega, rfl, fun j hij hjk => by omega⟩
      · rw [if_neg hpi] at heq
        cases heq
  | succ f ihf =>
      intro i s hi heq
      simp only [jsonLoopGo] at heq
      cases hstep : jsonStep parses (frames i) (accSeq parses frames i) with
      | brk a =>
          rw [hstep] at heq
          injection heq with hs
          have hacc : accSeq parses frames (i + 1) = s := by
            simp [accSeq, hstep, hs]
          exact ⟨hs ▸ jsonStep_brk_inv hstep, i + 1, by omega, hacc.symm,
            fun j hij hjk => by omega⟩
      | fault r =>
          rw [hstep] at heq
          cases heq
      | next a =>
          rw [hstep] at heq
          have hacc : accSeq parses frames (i + 1) = a := by
            simp [accSeq, hstep]
          rw [← hacc] at heq
          obtain ⟨hps, k, hk, hs, hj⟩ := ihf (i + 1) s (by omega) heq
          refine ⟨hps, k, hk, hs, ?_⟩
          intro j hij hjk
          rcases eq_or_lt_of_le hij with rfl | hlt
          · rcases jsonStep_next_inv hstep with hsame | ⟨hpf, -⟩
            · right
              rw [hacc, hsame]
            · left
              rw [hacc]
              exact hpf
          · exact hj j (by omega) hjk

/-- Claim C2: For every run of `getJSONResponse` in which each inbound
frame is treated as a fragment (it does not match the
carrying-more-data pattern, and either matches the brace pattern or an
accumulation is already in progress) but the accumulated text never
parses as valid JSON, the 15-iteration loop exhausts and returns the
absent result (`null`) — no fault is raised; and whenever the call
returns a parsed JSON value, that value is the accumulation at the
first successful parse: it parses, it is an accumulation state reached
within the 15 iterations, and every earlier iteration that changed the
accumulation left it unparseable. -/
theorem getJSONResponse_bounded_termination :
    (∀ (parses : List Nat → Bool) (frames : Nat → List Nat),
      (∀ s, parses s = false) →
      (∀ j, j < 15 → matchMoreData (frames j) = false ∧
        (matchBrace (frames j) = true ∨ accSeq parses frames j ≠ [])) →
      getJSONResponse parses frames = .absent) ∧
    (∀ (parses : List Nat → Bool) (frames : Nat → List Nat) (s : List Nat),
      getJSONResponse parses frames = .parsed s →
      parses s = true ∧ ∃ k, k ≤ 15 ∧ s = accSeq parses frames k ∧
        ∀ j, j + 1 < k →
          parses (accSeq parses frames (j + 1)) = false ∨
          accSeq parses frames (j + 1) = accSeq parses frames j) := by
  constructor
  · intro parses frames hp hf
    have h0 : accSeq parses frames 0 = [] := rfl
    have := jsonLoopGo_absent parses frames hp hf 15 0 (by omega)
    rw [h0] at this
    exact this
  · intro parses frames s heq
    have h0 : accSeq parses frames 0 = [] := rfl
    rw [show getJSONResponse parses frames =
      jsonLoopGo parses frames 15 0 (accSeq parses frames 0) from by
        rw [h0]; rfl] at heq
    obtain ⟨hps, k, hk, hs, hj⟩ := jsonLoopGo_parsed parses frames 15 0 s
      (by omega) heq
    exact ⟨hps, k, hk, hs, fun j hjk => hj j (by omega) hjk⟩

/-- A brace-carrying frame with no `o` after the marker: one leading
byte, the "command.xml" marker, 13 filler bytes (so that
`cleanBufferData`'s 24-byte prefix drop lands on the payload), and the
payload `"{a"`. -/
def braceFrameA : List Nat :=
  90 :: cmdXmlB ++ List.replicate 13 65 ++ [123, 97]

/-- Same frame shape with payload `"{b"`. -/
def braceFrameB : List Nat :=
  90 :: cmdXmlB ++ List.replicate 13 65 ++ [123, 98]

/-- A `parses` oracle under which nothing parses as JSON (as for these
fragment texts). -/
def neverParses : List Nat → Bool := fun _ => false

/-- Frame stream delivering `braceFrameA` then `braceFrameB` forever. -/
def framesAB : Nat → List Nat := fun i => if i = 0 then braceFrameA else braceFrameB

/-- Witness for C2: on a stream of brace fragments that never parse, the
call returns the absent result. -/
theorem getJSONResponse_bounded_termination_witness :
    getJSONResponse neverParses framesAB = .absent :=
  getJSONResponse_bounded_termination.1 neverParses framesAB
    (fun _ => rfl)
    (fun j _ => by
      constructor
      · by_cases hj : j = 0 <;> simp [framesAB, hj] <;> decide
      · left
        by_cases hj : j = 0 <;> simp [framesAB, hj] <;> decide)

/-- Counterexample to claim C7: Deliver the brace fragment `braceFrameA`
(cleaned text `"{a"`), then the brace fragment `braceFrameB` (cleaned
text `"{b"`), nothing parsing as JSON.  When `braceFrameB` arrives the
accumulation is `"{a"` (non-empty); the claim says a brace frame starts
a new accumulation and the prior partial buffer is discarded, which
would leave `"{b"`.  The code (`jsonResult += cleanBufferData(result)`)
appends instead, leaving `"{a{b"`. -/
theorem getJSONResponse_brace_appends :
    matchMoreData braceFrameB = false ∧ matchBrace braceFrameB = true ∧
    accSeq neverParses framesAB 1 = [123, 97] ∧
    accSeq neverParses framesAB 2 = [123, 97, 123, 98] ∧
    accSeq neverParses framesAB 2 ≠ cleanBufferData braceFrameB := by
  refine ⟨by decide, by decide, by decide, by decide, by decide⟩

/-- Claim C7 as amended: In every iteration of `getJSONResponse`, when a
frame not matching the carrying-more-data marker pattern matches the
brace pattern, the cleaned frame text is *appended* to the accumulation
(any prior partial accumulation buffer is retained, not discarded), and
the iteration breaks with the parsed value exactly when the new
accumulation parses; a frame without the brace is appended in the same
way only when an accumulation is already in progress; and when neither
holds the call fails with the `Something went wrong`
(`UnexpectedResponseFormat`) error. -/
theorem jsonStep_classification :
    (∀ (parses : List Nat → Bool) (r acc : List Nat),
      matchMoreData r = false → matchBrace r = true →
      jsonStep parses r acc =
        if parses (acc ++ cleanBufferData r)
        then .brk (acc ++ cleanBufferData r)
        else .next (acc ++ cleanBufferData r)) ∧
    (∀ (parses : List Nat → Bool) (r acc : List Nat),
      matchMoreData r = false → matchBrace r = false → acc ≠ [] →
      jsonStep parses r acc =
        if parses (acc ++ cleanBufferData r)
        then .brk (acc ++ cleanBufferData r)
        else .next (acc ++ cleanBufferData r)) ∧
    (∀ (parses : List Nat → Bool) (r acc : List Nat),
      matchMoreData r = false → matchBrace r = false → acc = [] →
      jsonStep parses r acc = .fault r) ∧
    (∀ (parses : List Nat → Bool) (frames : Nat → List Nat),
      matchMoreData (frames 0) = false → matchBrace (frames 0) = false →
      getJSONResponse parses frames = .fault (frames 0)) := by
  refine ⟨?_, ?_, ?_, ?_⟩
  · intro parses r acc hmd hb
    simp [jsonStep, hmd, hb]
  · intro parses r acc hmd hb hacc
    simp [jsonStep, hmd, hb, hacc]
  · intro parses r acc hmd hb hacc
    simp [jsonStep, hmd, hb, hacc]
  · intro parses frames hmd hb
    have hstep : jsonStep parses (frames 0) [] = .fault (frames 0) := by
      simp [jsonStep, hmd, hb]
    simp only [getJSONResponse, jsonLoopGo, hstep]

/-- Witness for the amended C7: a frame with neither marker nor brace on
the first iteration makes the call fail with the frame. -/
theorem jsonStep_classification_witness :
    getJSONResponse neverParses (fun _ => [1, 2, 3]) = .fault [1, 2, 3] :=
  jsonStep_classification.2.2.2 neverParses (fun _ => [1, 2, 3])
    (by decide) (by decide)

/-!
Component: Session/Init Manager (`init`, yokis.ts lines 92-125)

```ts
async init() {
    let firmwareInfos;
    try {
        firmwareInfos = await this.getVersion();
    } catch (error: any) {
        if (error.message == 'LIBUSB_TRANSFER_TIMED_OUT') {
            this.device?.reset(...);
            await delay(25000);
            throw new Error('LIBUSB_TRANSFER_TIMED_OUT - Unable to communicate ...');
        }
    }
    this.log.info('Firmware: ', firmwareInfos);
    if (firmwareInfos && firmwareInfos.firmwareVersion >= 1255) {
        const unlockResult = await this.unlockKey();
        if (!unlockResult) { throw new Error('Unable to unlock Yokis USB device'); }
    }
    return firmwareInfos;
}
```

The embedding passes the observable outcome of `getVersion` (the
firmware version, or the message of the raised error) and of the unlock
handshake as parameters, and records the side effects of the recovery
path (device reset, fixed wait) in an effect trace.  Note the `catch`
block: when the error message is *not* the timeout message, the `if` has
no `else` — the error is swallowed, `firmwareInfos` stays `undefined`,
and `init` returns `undefined`.
-/

/-- Bytes of the string "LIBUSB_TRANSFER_TIMED_OUT". -/
def timeoutMsg : List Nat :=
  [76, 73, 66, 85, 83, 66, 95, 84, 82, 65, 78, 83, 70, 69, 82, 95, 84, 73,
   77, 69, 68, 95, 79, 85, 84]

/-- Bytes of the string "LIBUSB_ERROR_PIPE" (a non-timeout transfer fault). -/
def pipeErrMsg : List Nat :=
  [76, 73, 66, 85, 83, 66, 95, 69, 82, 82, 79, 82, 95, 80, 73, 80, 69]

/-- Side effects of `init`'s recovery path. -/
inductive Eff where
  | reset : Eff
  | wait : Nat → Eff
deriving DecidableEq, Repr

/-- Result of `init`: a normal return carrying the firmware version (or
`none` for `undefined`), the terminal timeout error, or the unlock
failure error. -/
inductive InitRes where
  | ok : Option Nat → InitRes
  | timeoutErr : InitRes
  | unlockErr : InitRes
deriving DecidableEq, Repr

/-- Embedding of `init` (yokis.ts lines 92-125).  `ver` is the outcome
of `getVersion` (`.ok firmwareVersion` or `.error message`); `unlockOk`
is the boolean outcome of `unlockKey`.  Returns the result together with
the trace of recovery effects performed. -/
def init (ver : Except (List Nat) Nat) (unlockOk : Bool) :
    InitRes × List Eff :=
  match ver with
  | .error msg =>
      if msg = timeoutMsg then (.timeoutErr, [.reset, .wait 25000])
      else (.ok none, [])
  | .ok fw =>
      if fw ≥ 1255 then
        if unlockOk then (.ok (some fw), []) else (.unlockErr, [])
      else (.ok (some fw), [])

/-- Claim C9, a code bug: The claim — every transport fault other than a
transfer timeout propagates out of `init` — matches the spec's stated
propagation policy, but the code's `catch` block rethrows nothing for a
non-timeout error: `init` swallows the fault and resolves normally with
`undefined` firmware info and no recovery effect.  Only the timeout
message triggers the reset + 25 s wait and a terminal timeout error. -/
theorem init_swallows_nontimeout_faults :
    init (.error pipeErrMsg) true = (.ok none, []) ∧
    pipeErrMsg ≠ timeoutMsg ∧
    init (.error timeoutMsg) true = (.timeoutErr, [.reset, .wait 25000]) ∧
    (∀ unlockOk, init (.error pipeErrMsg) unlockOk = (.ok none, [])) := by
  refine ⟨by decide, by decide, by decide, fun unlockOk => by
    simp [init, pipeErrMsg, timeoutMsg]⟩

end Yokis
